import Mathlib

/-!
Verification of the crossword CSP core (`generate.py`) against its design spec.

The Python class `CrosswordCreator` is embedded shallowly: the mutable
`self.domains` store becomes an explicit `Domains` value threaded through the
functions, Python `dict`s become insertion-ordered association lists, Python
exceptions become `none` results, and each embedded function keeps the source's
name.  The `Crossword` puzzle model (`crossword.py`) is not under `src/`; its
interface is modelled from the spec (§3, §6) where noted.
-/

/-- Direction of a slot in the grid (the source's ACROSS / DOWN constants). -/
inductive Dir where
  | across
  | down
deriving DecidableEq

/-- Modelled from the spec: a slot (class Variable of crossword.py, which is not
under src/); identity is structural on (row, column, direction, length) per
spec section 3. -/
structure Var where
  i : Nat
  j : Nat
  direction : Dir
  length : Nat
deriving DecidableEq

/-- A dictionary word; Python strings are modelled as lists of characters. -/
abbrev Word := List Char

/-- Character access w[i].  The source's indexing raises IndexError out of
range; it is totalised here with a default character, and theorems that depend
on indexing carry range hypotheses (WMb, WSb) pinning the region on which the
total model and the source agree. -/
def charAt (w : Word) (i : Nat) : Char := w.getD i ' '

/-- Modelled from the spec: the Puzzle Model (crossword.py, not under src/) —
the slot set, the dictionary, and the precomputed overlap table mapping each
ordered pair of slots to either no overlap or the character-alignment index
pair (spec sections 3 and 6). -/
structure Crossword where
  vars : List Var
  words : List Word
  overlaps : Var → Var → Option (Nat × Nat)

/-- Modelled from the spec: the model exposes, per slot, the set of slots
sharing an overlap with it (its neighbors, spec section 3). -/
def Crossword.neighbors (m : Crossword) (x : Var) : List Var :=
  m.vars.filter (fun y => decide (y ≠ x) && (m.overlaps x y).isSome)

/-- The Domain Store: each slot's current candidate words (the source's
self.domains dict); its meaningful keys are the puzzle's variables. -/
abbrev Domains := Var → List Word

/-- Embedding of the constructor's domain initialisation: every slot's domain
starts as a copy of the full dictionary (source lines 13-16). -/
def initDomains (m : Crossword) : Domains := fun _ => m.words

/-- A partial or complete assignment: a Python dict from slot to word, in
insertion order. -/
abbrev Assign := List (Var × Word)

/-- Dict access: lookupA a v models both v in assignment and assignment[v]. -/
def lookupA : Assign → Var → Option Word
  | [], _ => none
  | (v, w) :: rest, x => if v = x then some w else lookupA rest x

/-- Embedding of enforce_node_consistency (source lines 96-107): for every
slot, remove each candidate word whose length differs from the slot's length.
The source iterates over a copy of the set and removes from the original,
which is pointwise filtering. -/
def enforce_node_consistency (d : Domains) : Domains :=
  fun var => (d var).filter (fun w => w.length == var.length)

/-- Embedding of revise(x, y) (source lines 109-134).  When x and y overlap at
(i, j), the source's removable list collects exactly the words of domains[x]
that have a supporting word in domains[y]; every word of the old domain not in
removable is then removed, and revision reports whether the old and new sets
differ — removal-only, so they differ exactly when some word was removed.
With no overlap nothing happens and False is returned. -/
def revise (m : Crossword) (d : Domains) (x y : Var) : Bool × Domains :=
  match m.overlaps x y with
  | none => (false, d)
  | some (i, j) =>
    let removable := (d x).filter (fun xv => (d y).any (fun yv => charAt xv i == charAt yv j))
    let newDx := (d x).filter (fun w => decide (w ∈ removable))
    let revision := (d x).any (fun w => decide (w ∉ newDx))
    (revision, fun v => if v = x then newDx else d v)

/-- The default worklist of ac3: every ordered pair of distinct slots sharing
an overlap (source lines 145-151). -/
def seedArcs (m : Crossword) : List (Var × Var) :=
  m.vars.flatMap (fun a =>
    (m.vars.filter (fun b => decide (a ≠ b) && (m.overlaps a b).isSome)).map
      (fun b => (a, b)))

/-- Embedding of ac3(arcs=None) (source lines 136-166).  The guard
if not arcs treats both None and the empty list as absent and seeds the
default worklist.  The loop header of the source reads while not arclist, so
the loop is entered exactly when the worklist is empty, and the body's first
statement arclist.pop(0) then raises IndexError (modelled as none); with a
non-empty worklist the loop never runs — revise is never called, no domain
changes, and the function returns True. -/
def ac3 (m : Crossword) (d : Domains) (arcs : Option (List (Var × Var))) :
    Option (Bool × Domains) :=
  let arclist := match arcs with
    | none => seedArcs m
    | some l => if l.isEmpty then seedArcs m else l
  if arclist.isEmpty then none else some (true, d)

/-- Embedding of assignment_complete (source lines 169-178): every key of the
store (the puzzle's variables) is present in the assignment. -/
def assignment_complete (m : Crossword) (a : Assign) : Bool :=
  m.vars.all (fun v => (lookupA a v).isSome)

/-- The binary-constraint part of one iteration of consistent's outer loop
(source lines 196-202): every assigned neighbor of var agrees with w at the
overlap positions. -/
def nbOK (m : Crossword) (full : Assign) (var : Var) (w : Word) : Bool :=
  (m.neighbors var).all (fun nb =>
    match m.overlaps var nb with
    | some (i, j) =>
      match lookupA full nb with
      | some nw => charAt w i == charAt nw j
      | none => true
    | none => true)

/-- The outer loop of consistent (source lines 185-203); vs is the accumulating
values list used for the pairwise-distinctness check. -/
def consistentAux (m : Crossword) (full : Assign) : List Word → List (Var × Word) → Bool
  | _, [] => true
  | vs, (var, w) :: rest =>
    if var.length ≠ w.length then false
    else if w ∈ vs then false
    else if nbOK m full var w then consistentAux m full (vs ++ [w]) rest
    else false

/-- Embedding of consistent(assignment) (source lines 180-203). -/
def consistent (m : Crossword) (a : Assign) : Bool :=
  consistentAux m a [] a

/-- The count computed by order_domain_values for one candidate w (source lines
217-233): over each unassigned neighbor having an overlap, the number of its
domain words whose overlap character EQUALS w's overlap character (the code's
comment speaks of ruling out, but the test it performs is equality). -/
def orderCount (m : Crossword) (d : Domains) (a : Assign) (var : Var) (w : Word) : Nat :=
  ((m.neighbors var).map (fun nb =>
    if (lookupA a nb).isSome then 0
    else match m.overlaps var nb with
      | some (i, j) => (d nb).countP (fun v => charAt v j == charAt w i)
      | none => 0)).sum

/-- The comparison embedding the source's
sorted(count.items(), key=lambda x: x[1], reverse=True): descending by count.
Python's sort is stable; no theorem below relies on tie order, so the stable
insertion sort stands in for it. -/
def descBySnd (p q : Word × Nat) : Prop := q.2 ≤ p.2

instance : DecidableRel descBySnd := fun p q => inferInstanceAs (Decidable (q.2 ≤ p.2))

/-- Embedding of order_domain_values(var, assignment) (source lines 206-241):
pair each candidate with its count, sort descending by count, return the
words. -/
def order_domain_values (m : Crossword) (d : Domains) (var : Var) (a : Assign) : List Word :=
  let pairs := (d var).map (fun w => (w, orderCount m d a var w))
  (List.insertionSort descBySnd pairs).map Prod.fst

/-- Ascending by domain size, embedding sorted(count.items(), key=lambda x: x[1])
in select_unassigned_variable. -/
def ascBySnd (p q : Var × Nat) : Prop := p.2 ≤ q.2

instance : DecidableRel ascBySnd := fun p q => inferInstanceAs (Decidable (p.2 ≤ q.2))

/-- Descending by degree, embedding the reverse=True sort on the degree dict in
select_unassigned_variable. -/
def descByDeg (p q : Var × Nat) : Prop := q.2 ≤ p.2

instance : DecidableRel descByDeg := fun p q => inferInstanceAs (Decidable (q.2 ≤ p.2))

/-- Embedding of select_unassigned_variable (source lines 243-277): among the
unassigned slots take those of minimum remaining domain size, then the one of
highest degree.  The source indexes sorted_order[0], which raises on an empty
dict (every slot already assigned); that case is modelled as none. -/
def select_unassigned_variable (m : Crossword) (d : Domains) (a : Assign) : Option Var :=
  let count := (m.vars.filter (fun v => (lookupA a v).isNone)).map
    (fun v => (v, (d v).length))
  match List.insertionSort ascBySnd count with
  | [] => none
  | (_, minv) :: _ =>
    let tied := count.filter (fun p => p.2 == minv)
    let deg := tied.map (fun p => (p.1, (m.neighbors p.1).length))
    match List.insertionSort descByDeg deg with
    | [] => none
    | best :: _ => some best.1

/-- The candidate loop of backtrack (source lines 293-299): try each word in
order, extend the assignment (the Python dict gains the new key at the end),
recurse when consistent, and undo.  Python's if result: treats both None and
the empty dict as falsy, so an empty returned assignment is retried past. -/
def tryWords (m : Crossword) (go1 : Assign → Option Assign) (var : Var) (a : Assign) :
    List Word → Option Assign
  | [] => none
  | w :: rest =>
    let a1 := a ++ [(var, w)]
    if consistent m a1 then
      match go1 a1 with
      | some r => if r.isEmpty then tryWords m go1 var a rest else some r
      | none => tryWords m go1 var a rest
    else tryWords m go1 var a rest

/-- Embedding of backtrack (source lines 279-300) with an explicit
recursion-depth fuel: every recursive call of the source extends the
assignment by one previously unassigned slot, so its depth is bounded by the
number of slots, and backtrack below supplies sufficient fuel. -/
def backtrackGo (m : Crossword) (d : Domains) : Nat → Assign → Option Assign
  | 0, _ => none
  | fuel + 1, a =>
    if assignment_complete m a then some a
    else
      match select_unassigned_variable m d a with
      | none => none
      | some var => tryWords m (backtrackGo m d fuel) var a (order_domain_values m d var a)

/-- backtrack(assignment) at adequate fuel. -/
def backtrack (m : Crossword) (d : Domains) (a : Assign) : Option Assign :=
  backtrackGo m d (m.vars.length + 1) a

/-- Embedding of solve (source lines 88-94): enforce node consistency, run
ac3() — whose boolean result the source discards — then return
backtrack(dict()); an exception raised by ac3 propagates (outer none). -/
def solve (m : Crossword) : Option (Option Assign) :=
  let d1 := enforce_node_consistency (initDomains m)
  match ac3 m d1 none with
  | none => none
  | some (_, d2) => some (backtrack m d2 [])

/-- Modelled from the spec (claim C3's words, spec section 4.7): solve enforces
node consistency, runs AC-3 over all initial arcs, fails immediately with the
no-solution signal — without invoking backtracking — if AC-3 reports failure,
and otherwise returns backtrack on the empty assignment. -/
def solveClaim (m : Crossword) : Option (Option Assign) :=
  let d1 := enforce_node_consistency (initDomains m)
  match ac3 m d1 none with
  | none => none
  | some (false, _) => some none
  | some (true, d2) => some (backtrack m d2 [])

/-- Modelled from the spec (claim C1's words, spec section 4.3): the store is
arc-consistent when for every slot x, every neighbor y, and every word w in
domains[x] there is at least one v in domains[y] agreeing at the overlap. -/
def arcConsistentB (m : Crossword) (d : Domains) : Bool :=
  m.vars.all (fun x =>
    (m.neighbors x).all (fun y =>
      (d x).all (fun w =>
        match m.overlaps x y with
        | some (i, j) => (d y).any (fun v => charAt w i == charAt v j)
        | none => true)))

/-- Modelled from the spec (claim C9's words, spec section 4.5): the number of
values a candidate w for var rules out among unassigned neighbors — the words
of the neighbor's domain whose overlap character differs from w's. -/
def ruledOutCount (m : Crossword) (d : Domains) (a : Assign) (var : Var) (w : Word) : Nat :=
  ((m.neighbors var).map (fun nb =>
    if (lookupA a nb).isSome then 0
    else match m.overlaps var nb with
      | some (i, j) => (d nb).countP (fun v => !(charAt v j == charAt w i))
      | none => 0)).sum

/-- Range well-formedness of the overlap table (spec section 7 lets the core
assume a well-formed model): every recorded overlap index falls inside the two
slots' lengths. -/
def WMb (m : Crossword) : Bool :=
  m.vars.all (fun x => m.vars.all (fun y =>
    match m.overlaps x y with
    | some (i, j) => decide (i < x.length) && decide (j < y.length)
    | none => true))

/-- Range well-formedness of a store: every candidate word has its slot's
length, the invariant of spec section 3 after node consistency. -/
def WSb (m : Crossword) (d : Domains) : Bool :=
  m.vars.all (fun v => (d v).all (fun w => w.length == v.length))

/-! Concrete puzzle models used to evaluate the embedded code. -/

/-- A length-1 across slot at the origin. -/
def X1 : Var := ⟨0, 0, Dir.across, 1⟩

/-- A length-1 down slot at the origin, crossing X1 in its single cell. -/
def Y1 : Var := ⟨0, 0, Dir.down, 1⟩

/-- A length-2 down slot at the origin, crossing X1 in its first cell. -/
def Y2 : Var := ⟨0, 0, Dir.down, 2⟩

/-- The word a. -/
def wA : Word := ['a']

/-- The word b. -/
def wB : Word := ['b']

/-- The word ab. -/
def wAB : Word := ['a', 'b']

/-- Two length-1 slots sharing their single cell: the overlap constrains the
two words to have the same character. -/
def M1 : Crossword where
  vars := [X1, Y1]
  words := [wA, wB]
  overlaps := fun u v =>
    if u = X1 ∧ v = Y1 then some (0, 0)
    else if u = Y1 ∧ v = X1 then some (0, 0)
    else none

/-- A store on M1 that is NOT arc-consistent: X1 holds a, Y1 holds only b. -/
def D1 : Domains := fun v => if v = X1 then [wA] else [wB]

/-- A store on M1 giving every slot the single word a. -/
def D5 : Domains := fun _ => [wA]

/-- D5 with slot Y1's domain emptied; it agrees with D5 at every other slot. -/
def D5e : Domains := fun v => if v = Y1 then [] else D5 v

/-- A store on M1 where X1 has both words but only a is supported by Y1. -/
def D9 : Domains := fun v => if v = X1 then [wA, wB] else [wA]

/-- A length-1 and a length-2 slot crossing at X1's cell and Y2's first cell;
the dictionary has no length-2 word, so node consistency empties Y2's domain. -/
def M2 : Crossword where
  vars := [X1, Y2]
  words := [wA]
  overlaps := fun u v =>
    if u = X1 ∧ v = Y2 then some (0, 0)
    else if u = Y2 ∧ v = X1 then some (0, 0)
    else none

/-- The store of M2 after node consistency. -/
def D2 : Domains := enforce_node_consistency (initDomains M2)

/-- Two length-1 slots with NO overlap anywhere, and a two-word dictionary. -/
def M4 : Crossword where
  vars := [X1, Y1]
  words := [wA, wB]
  overlaps := fun _ _ => none

/-- A complete consistent assignment on M2: X1 gets a, Y2 gets ab (they agree
on the shared cell and the words are distinct). -/
def A8 : Assign := [(X1, wA), (Y2, wAB)]

/-- The sub-assignment of A8 that drops slot X1. -/
def A8sub : Assign := [(Y2, wAB)]

/-- The assignment backtrack finds on M4 from the empty assignment. -/
def R7 : Assign := [(X1, wA), (Y1, wB)]

/-! Helper lemmas shared by the claim theorems. -/

/-- Helper: ac3 either raises or returns True with the domains untouched
(the inverted loop guard means the revision loop of the source never runs). -/
theorem ac3_cases (m : Crossword) (d : Domains) (arcs : Option (List (Var × Var))) :
    ac3 m d arcs = none ∨ ac3 m d arcs = some (true, d) := by
  by_cases he : (match arcs with
      | none => seedArcs m
      | some l => if l.isEmpty then seedArcs m else l).isEmpty
  · left; simp only [ac3]; rw [if_pos he]
  · right; simp only [ac3]; rw [if_neg he]

/-- Helper: ac3 only ever returns the boolean True, with the domains
untouched. -/
theorem ac3_ok_shape (m : Crossword) (d : Domains) (arcs : Option (List (Var × Var)))
    {b : Bool} {d2 : Domains} (h : ac3 m d arcs = some (b, d2)) : b = true ∧ d2 = d := by
  rcases ac3_cases m d arcs with hc | hc <;> rw [hc] at h
  · exact absurd h (by simp)
  · simp only [Option.some.injEq, Prod.mk.injEq] at h
    exact ⟨h.1.symm, h.2.symm⟩

/-- C6: enforce_node_consistency removes precisely the words whose length
differs from their slot's length, touches nothing else, and is idempotent. -/
theorem enforce_node_consistency_spec (d : Domains) :
    (∀ var w, w ∈ enforce_node_consistency d var ↔ w ∈ d var ∧ w.length = var.length)
    ∧ enforce_node_consistency (enforce_node_consistency d) = enforce_node_consistency d := by
  constructor
  · intro var w
    simp [enforce_node_consistency, List.mem_filter]
  · funext var
    simp [enforce_node_consistency, List.filter_filter]

/-- C3: solve agrees with the spec's description of the pipeline — node
consistency, then AC-3 over all initial arcs, then immediate failure if AC-3
reports failure and backtrack on the empty assignment otherwise.  (The source
discards ac3's boolean, but the failure branch of the description is vacuous:
ac3 can only return True or raise, see ac3_ok_shape.) -/
theorem solve_eq_solveClaim (m : Crossword) : solve m = solveClaim m := by
  unfold solve solveClaim
  rcases ac3_cases m (enforce_node_consistency (initDomains m)) none with hc | hc <;>
    simp only [hc]

/-- C10: on a model in which no two distinct slots share an overlap, ac3 with
no initial arcs (None or the empty list) seeds an empty worklist and raises
IndexError (modelled as none) instead of returning a boolean. -/
theorem ac3_empty_worklist_raises (m : Crossword) (d : Domains)
    (h : ∀ a ∈ m.vars, ∀ b ∈ m.vars, a ≠ b → m.overlaps a b = none) :
    ac3 m d none = none ∧ ac3 m d (some []) = none := by
  have hseed : seedArcs m = [] := by
    simp only [seedArcs, List.flatMap_eq_nil_iff]
    intro a ha
    simp only [List.map_eq_nil_iff, List.filter_eq_nil_iff]
    intro b hb
    by_cases hab : a = b
    · simp [hab]
    · simp [hab, h a ha b hb hab]
  refine ⟨?_, ?_⟩ <;> simp [ac3, hseed]

/-- Witness for C10 on the concrete overlap-free model M4. -/
theorem ac3_empty_worklist_raises_witness :
    ac3 M4 (initDomains M4) none = none ∧ ac3 M4 (initDomains M4) (some []) = none :=
  ac3_empty_worklist_raises M4 (initDomains M4) (by decide)

/-- C1 (code evaluated at the failing input): on M1 with the store D1, ac3
returns True leaving the store unchanged, yet the store is not arc-consistent
— the word a of slot X1 has no support in the neighbor Y1's domain. -/
theorem ac3_true_not_arc_consistent :
    ac3 M1 D1 none = some (true, D1) ∧ arcConsistentB M1 D1 = false := by
  constructor
  · rfl
  · decide

/-- C2 (code evaluated at the failing input): on M2, node consistency empties
slot Y2's domain, yet the subsequent default-worklist ac3 call returns True
instead of False. -/
theorem ac3_true_on_empty_domain :
    D2 Y2 = [] ∧ ac3 M2 D2 none = some (true, D2) := by
  constructor
  · decide
  · rfl

/-- C5 counterexample: revise DOES inspect domains[y].  The stores D5 and D5e
agree at every slot except Y1 (D5e is D5 with Y1's domain emptied), yet
revise(X1, Y1) returns False on the first and True on the second, removing
X1's word a only in the second. -/
theorem revise_reads_domain_y :
    (revise M1 D5 X1 Y1).1 = false ∧ (revise M1 D5e X1 Y1).1 = true
      ∧ D5e X1 = D5 X1 := by
  refine ⟨by decide, by decide, by decide⟩

/-- C5 amended: revise(x, y) never mutates any domain other than domains[x]
(in particular domains[y] is exactly as before the call). -/
theorem revise_frame (m : Crossword) (d : Domains) (x y z : Var) (hzx : z ≠ x) :
    (revise m d x y).2 z = d z := by
  unfold revise
  cases m.overlaps x y with
  | none => rfl
  | some p =>
    obtain ⟨i, j⟩ := p
    simp [hzx]

/-- Witness for the amended C5: on M1, revise(X1, Y1) leaves Y1's domain
untouched. -/
theorem revise_frame_witness : (revise M1 D5 X1 Y1).2 Y1 = D5 Y1 :=
  revise_frame M1 D5 X1 Y1 Y1 (by decide)

/-- C4: with a defined overlap (i, j), revise(x, y) keeps in domains[x] exactly
the words having a supporting word in domains[y] — removing precisely the
unsupported ones — and returns True iff at least one word was removed; with no
overlap it is a no-op returning False.  The membership, well-formedness and
distinctness hypotheses scope the statement to the well-formed inputs of spec
section 7, on which the total charAt agrees with the source's partial
indexing. -/
theorem revise_spec (m : Crossword) (d : Domains) (x y : Var)
    (hx : x ∈ m.vars) (hy : y ∈ m.vars) (hxy : x ≠ y)
    (hWM : WMb m = true) (hWS : WSb m d = true) :
    (∀ i j, m.overlaps x y = some (i, j) →
      ((∀ w, w ∈ (revise m d x y).2 x ↔
          w ∈ d x ∧ ∃ v ∈ d y, charAt w i = charAt v j)
        ∧ ((revise m d x y).1 = true ↔
          ∃ w ∈ d x, ∀ v ∈ d y, charAt w i ≠ charAt v j)))
    ∧ (m.overlaps x y = none → revise m d x y = (false, d)) := by
  constructor
  · intro i j hov
    constructor
    · intro w
      simp only [revise, hov]
      simp [List.mem_filter, List.any_eq_true, beq_iff_eq]
    · simp only [revise, hov]
      simp [List.mem_filter, List.any_eq_true, beq_iff_eq]
      constructor
      · rintro ⟨w, hw, hcase⟩
        exact ⟨w, hw, hcase.resolve_left (fun h => h hw)⟩
      · rintro ⟨w, hw, hall⟩
        exact ⟨w, hw, Or.inr hall⟩
  · intro hov
    simp only [revise, hov]

/-- Witness for C4 on M1 with store D9: the unsupported word b is removed from
X1's domain and revise reports a revision. -/
theorem revise_spec_witness :
    wB ∉ (revise M1 D9 X1 Y1).2 X1 ∧ (revise M1 D9 X1 Y1).1 = true := by
  have h := (revise_spec M1 D9 X1 Y1 (by decide) (by decide) (by decide) (by decide)
    (by decide)).1 0 0 (by decide)
  constructor
  · intro hmem
    exact absurd ((h.1 wB).mp hmem) (by decide)
  · exact h.2.mpr (by decide)

/-- Helper: a successful dict lookup means the key occurs in the dict. -/
theorem lookupA_mem_keys {a : Assign} {x : Var} {w : Word} (h : lookupA a x = some w) :
    x ∈ a.map Prod.fst := by
  induction a with
  | nil => simp [lookupA] at h
  | cons p rest ih =>
    obtain ⟨v, u⟩ := p
    simp only [lookupA] at h
    by_cases hv : v = x
    · subst hv; simp
    · rw [if_neg hv] at h
      simp [ih h]

/-- Helper: on key-distinct dicts, a lookup that succeeds in a sub-dict
succeeds with the same value in the full dict. -/
theorem lookupA_sublist {a' a : Assign} (hsub : List.Sublist a' a)
    (hnd : (a.map Prod.fst).Nodup) {x : Var} {w : Word}
    (h : lookupA a' x = some w) : lookupA a x = some w := by
  induction hsub with
  | slnil => simp [lookupA] at h
  | cons p hs ih =>
    obtain ⟨v, u⟩ := p
    simp only [List.map_cons, List.nodup_cons] at hnd
    have hrec := ih hnd.2 h
    have hvx : v ≠ x := by
      intro hvx
      exact hnd.1 (hvx ▸ lookupA_mem_keys hrec)
    simp [lookupA, if_neg hvx, hrec]
  | cons₂ p hs ih =>
    obtain ⟨v, u⟩ := p
    simp only [List.map_cons, List.nodup_cons] at hnd
    simp only [lookupA] at h ⊢
    by_cases hvx : v = x
    · rwa [if_pos hvx] at h ⊢
    · rw [if_neg hvx] at h ⊢
      exact ih hnd.2 h

/-- Helper: characterisation of the consistent loop — it succeeds iff every
entry passes the unary and neighbor checks, the words are pairwise distinct,
and none of them hits the accumulator. -/
theorem consistentAux_eq_true_iff (m : Crossword) (full : Assign) :
    ∀ (l : List (Var × Word)) (vs : List Word),
      consistentAux m full vs l = true ↔
        ((∀ p ∈ l, p.1.length = p.2.length ∧ nbOK m full p.1 p.2 = true)
          ∧ (l.map Prod.snd).Nodup ∧ ∀ w ∈ l.map Prod.snd, w ∉ vs) := by
  intro l
  induction l with
  | nil => intro vs; simp [consistentAux]
  | cons p rest ih =>
    intro vs
    obtain ⟨var, w⟩ := p
    simp only [consistentAux]
    by_cases h1 : var.length ≠ w.length
    · rw [if_pos h1]
      refine iff_of_false (by simp) ?_
      rintro ⟨hall, -, -⟩
      exact h1 (hall _ (List.mem_cons_self _ _)).1
    · rw [if_neg h1]
      push_neg at h1
      by_cases h2 : w ∈ vs
      · rw [if_pos h2]
        refine iff_of_false (by simp) ?_
        rintro ⟨-, -, hfr⟩
        exact hfr w (by simp) h2
      · rw [if_neg h2]
        by_cases h3 : nbOK m full var w = true
        · rw [if_pos h3, ih (vs ++ [w])]
          simp only [List.map_cons, List.nodup_cons, List.mem_cons, List.mem_append,
            List.not_mem_nil, or_false]
          constructor
          · rintro ⟨hall, hnd, hfr⟩
            refine ⟨?_, ⟨?_, hnd⟩, ?_⟩
            · rintro q (rfl | hq)
              · exact ⟨h1, h3⟩
              · exact hall q hq
            · intro hwmem
              exact (hfr w hwmem) (Or.inr rfl)
            · rintro u (rfl | hu)
              · exact h2
              · intro huvs
                exact hfr u hu (Or.inl huvs)
          · rintro ⟨hall, ⟨hwnot, hnd⟩, hfr⟩
            refine ⟨fun q hq => hall q (Or.inr hq), hnd, ?_⟩
            intro u hu
            rintro (huvs | rfl)
            · exact hfr u (Or.inr hu) huvs
            · exact hwnot hu
        · rw [if_neg h3]
          refine iff_of_false (by simp) ?_
          rintro ⟨hall, -, -⟩
          exact h3 (hall _ (List.mem_cons_self _ _)).2

/-- Helper: consistent succeeds iff every entry passes the unary and neighbor
checks and the assigned words are pairwise distinct. -/
theorem consistent_eq_true_iff (m : Crossword) (a : Assign) :
    consistent m a = true ↔
      ((∀ p ∈ a, p.1.length = p.2.length ∧ nbOK m a p.1 p.2 = true)
        ∧ (a.map Prod.snd).Nodup) := by
  unfold consistent
  rw [consistentAux_eq_true_iff]
  simp

/-- Helper: the neighbor check survives restriction of the assignment — a
neighbor still assigned in the sub-assignment carries the same word. -/
theorem nbOK_sublist (m : Crossword) {a' a : Assign} (hsub : List.Sublist a' a)
    (hnd : (a.map Prod.fst).Nodup) (var : Var) (w : Word)
    (h : nbOK m a var w = true) : nbOK m a' var w = true := by
  simp only [nbOK, List.all_eq_true] at h ⊢
  intro nb hnb
  have hh := h nb hnb
  cases hov : m.overlaps var nb with
  | none => simp [hov]
  | some p =>
    obtain ⟨i, j⟩ := p
    rw [hov] at hh
    simp only [hov]
    cases hl : lookupA a' nb with
    | none => simp
    | some nw =>
      have hla : lookupA a nb = some nw := lookupA_sublist hsub hnd hl
      rw [hla] at hh
      simpa using hh

/-- C8: consistent is monotone under restriction — every sub-assignment
(dict with some keys removed, i.e. a sublist of the key-distinct insertion
ordered dict) of a complete consistent assignment is itself consistent. -/
theorem consistent_sublist (m : Crossword) (a a' : Assign)
    (hnd : (a.map Prod.fst).Nodup) (hsub : List.Sublist a' a)
    (hcomp : assignment_complete m a = true) (hcons : consistent m a = true) :
    consistent m a' = true := by
  rw [consistent_eq_true_iff] at hcons ⊢
  obtain ⟨hall, hnodup⟩ := hcons
  refine ⟨?_, ?_⟩
  · intro p hp
    obtain ⟨h1, h2⟩ := hall p (hsub.subset hp)
    exact ⟨h1, nbOK_sublist m hsub hnd p.1 p.2 h2⟩
  · exact hnodup.sublist (hsub.map Prod.snd)

/-- Witness for C8: dropping slot X1 from the complete consistent assignment
A8 on M2 leaves a consistent assignment. -/
theorem consistent_sublist_witness : consistent M2 A8sub = true :=
  consistent_sublist M2 A8 A8sub (by decide)
    (List.Sublist.cons _ (List.Sublist.refl _)) (by decide) (by decide)

/-- Helper: any assignment produced by the candidate loop satisfies whatever
the recursive call guarantees for consistent extensions (the loop checks
consistent before recursing, and only propagates non-falsy results). -/
theorem tryWords_sound (m : Crossword) (go1 : Assign → Option Assign) (var : Var)
    (P : Assign → Prop)
    (hgo1 : ∀ a r, consistent m a = true → go1 a = some r → P r) :
    ∀ (ws : List Word) (a r : Assign), tryWords m go1 var a ws = some r → P r := by
  intro ws
  induction ws with
  | nil => intro a r h; simp [tryWords] at h
  | cons w rest ih =>
    intro a r h
    simp only [tryWords] at h
    by_cases hcons : consistent m (a ++ [(var, w)]) = true
    · rw [if_pos hcons] at h
      cases hgo : go1 (a ++ [(var, w)]) with
      | none => rw [hgo] at h; exact ih a r h
      | some r2 =>
        rw [hgo] at h
        dsimp only at h
        by_cases hemp : r2.isEmpty = true
        · rw [if_pos hemp] at h
          exact ih a r h
        · rw [if_neg hemp] at h
          cases h
          exact hgo1 _ _ hcons hgo
    · rw [if_neg hcons] at h
      exact ih a r h

/-- Helper: soundness of the fuelled backtracking loop — from a consistent
start, any returned assignment is complete and consistent. -/
theorem backtrackGo_sound (m : Crossword) (d : Domains) :
    ∀ (fuel : Nat) (a r : Assign), consistent m a = true →
      backtrackGo m d fuel a = some r →
      assignment_complete m r = true ∧ consistent m r = true := by
  intro fuel
  induction fuel with
  | zero => intro a r _ h; simp [backtrackGo] at h
  | succ n ih =>
    intro a r hcons h
    simp only [backtrackGo] at h
    by_cases hcomp : assignment_complete m a = true
    · rw [if_pos hcomp] at h
      cases h
      exact ⟨hcomp, hcons⟩
    · rw [if_neg hcomp] at h
      cases hsel : select_unassigned_variable m d a with
      | none => rw [hsel] at h; exact absurd h (by simp)
      | some var =>
        rw [hsel] at h
        exact tryWords_sound m (backtrackGo m d n) var
          (fun r2 => assignment_complete m r2 = true ∧ consistent m r2 = true)
          (fun a2 r2 hc hg => ih a2 r2 hc hg)
          (order_domain_values m d var a) a r h

/-- C7: every non-None assignment returned by backtrack from a consistent
partial assignment is complete and consistent. -/
theorem backtrack_sound (m : Crossword) (d : Domains) (a r : Assign)
    (hcons : consistent m a = true) (h : backtrack m d a = some r) :
    assignment_complete m r = true ∧ consistent m r = true :=
  backtrackGo_sound m d (m.vars.length + 1) a r hcons h

/-- Witness for C7: on the overlap-free two-slot model M4, backtrack from the
empty assignment returns R7, which is complete and consistent. -/
theorem backtrack_sound_witness :
    assignment_complete M4 R7 = true ∧ consistent M4 R7 = true :=
  backtrack_sound M4 (initDomains M4) [] R7 (by decide) (by decide)

/-- Helper: a predicate's count and its negation's count add up to the list
length. -/
theorem countP_add_countP_not (p : Word → Bool) (l : List Word) :
    l.countP p + l.countP (fun a => !p a) = l.length := by
  induction l with
  | nil => rfl
  | cons x rest ih =>
    by_cases h : p x = true <;> simp [List.countP_cons, h] <;> omega

/-- Helper: for each candidate, the code's compatibility count and the spec's
ruled-out count sum to the total number of words available in unassigned
overlapping neighbors — a quantity independent of the candidate.  Hence
sorting descending by the former is sorting ascending by the latter. -/
theorem orderCount_add_ruledOutCount (m : Crossword) (d : Domains) (a : Assign)
    (var : Var) (w : Word) :
    orderCount m d a var w + ruledOutCount m d a var w =
      ((m.neighbors var).map (fun nb =>
        if (lookupA a nb).isSome then 0
        else match m.overlaps var nb with
          | some _ => (d nb).length
          | none => 0)).sum := by
  unfold orderCount ruledOutCount
  induction m.neighbors var with
  | nil => simp
  | cons nb rest ih =>
    simp only [List.map_cons, List.sum_cons]
    have hpoint : (if (lookupA a nb).isSome then 0
        else match m.overlaps var nb with
          | some (i, j) => (d nb).countP (fun v => charAt v j == charAt w i)
          | none => 0)
        + (if (lookupA a nb).isSome then 0
        else match m.overlaps var nb with
          | some (i, j) => (d nb).countP (fun v => !(charAt v j == charAt w i))
          | none => 0)
        = (if (lookupA a nb).isSome then 0
        else match m.overlaps var nb with
          | some _ => (d nb).length
          | none => 0) := by
      by_cases hl : (lookupA a nb).isSome
      · simp [hl]
      · simp only [if_neg hl]
        cases hov : m.overlaps var nb with
        | none => rfl
        | some pr =>
          obtain ⟨i, j⟩ := pr
          exact countP_add_countP_not _ _
    omega

/-- C9: order_domain_values returns exactly the words of domains[var] (as a
permutation), ordered ascending by the number of values ruled out for
unassigned neighbors (assigned neighbors contribute nothing, by the definition
of ruledOutCount, which follows the claim's words).  The side hypotheses scope
the statement to well-formed, duplicate-free stores, where the embedding
matches the source's set-keyed dict and partial indexing. -/
theorem order_domain_values_spec (m : Crossword) (d : Domains) (var : Var) (a : Assign)
    (hvar : var ∈ m.vars) (hnd : (d var).Nodup)
    (hWM : WMb m = true) (hWS : WSb m d = true) :
    (order_domain_values m d var a).Perm (d var)
    ∧ (order_domain_values m d var a).Pairwise
        (fun w1 w2 => ruledOutCount m d a var w1 ≤ ruledOutCount m d a var w2) := by
  constructor
  · unfold order_domain_values
    have hid : ∀ l : List Word,
        List.map Prod.fst (List.map (fun w => (w, orderCount m d a var w)) l) = l := by
      intro l
      induction l with
      | nil => rfl
      | cons x xs ih => simp [ih]
    have hperm := (List.perm_insertionSort descBySnd
      ((d var).map (fun w => (w, orderCount m d a var w)))).map Prod.fst
    rw [hid (d var)] at hperm
    exact hperm
  · unfold order_domain_values
    have hsorted : (List.insertionSort descBySnd
        ((d var).map (fun w => (w, orderCount m d a var w)))).Pairwise descBySnd := by
      haveI : IsTotal (Word × Nat) descBySnd := ⟨fun p q => Nat.le_total q.2 p.2⟩
      haveI : IsTrans (Word × Nat) descBySnd := ⟨fun p q r h1 h2 => Nat.le_trans h2 h1⟩
      exact List.sorted_insertionSort descBySnd _
    have hmem : ∀ p ∈ List.insertionSort descBySnd
        ((d var).map fun w => (w, orderCount m d a var w)),
        p.2 = orderCount m d a var p.1 := by
      intro p hp
      have hp2 : p ∈ (d var).map fun w => (w, orderCount m d a var w) :=
        (List.perm_insertionSort descBySnd _).mem_iff.mp hp
      simp only [List.mem_map] at hp2
      obtain ⟨w, -, rfl⟩ := hp2
      rfl
    rw [List.pairwise_map]
    refine hsorted.imp_of_mem ?_
    intro p q hp hq hpq
    have e1 := hmem p hp
    have e2 := hmem q hq
    have key1 := orderCount_add_ruledOutCount m d a var p.1
    have key2 := orderCount_add_ruledOutCount m d a var q.1
    unfold descBySnd at hpq
    omega

/-- Witness for C9: on M1 with store D9 the returned list is a permutation of
X1's domain. -/
theorem order_domain_values_spec_witness :
    (order_domain_values M1 D9 X1 []).Perm (D9 X1) :=
  (order_domain_values_spec M1 D9 X1 [] (by decide) (by decide) (by decide) (by decide)).1
